import Mathlib

/-!
Verification of the StatAtlas scoring engine and UI helpers.

The native scoring kernel (C), the frontend API client and React components
(TypeScript) are embedded shallowly below: IEEE doubles are modeled as
`Option ℚ` with `none` as the NaN sentinel (the kernel only branches on
NaN-ness and otherwise uses exact-per-claim arithmetic), JS strings as
`String`/`List Char`, and JS `%` on integers as `Int.tmod`.
-/

namespace StatAtlas

/-- A double value: `none` models the NaN sentinel, `some q` an ordinary value. -/
abbrev DVal := Option ℚ

/-- NaN test from the native kernel: `value != value` holds exactly for NaN. -/
def is_nan (v : DVal) : Bool := v.isNone

/-- NaN-propagating addition on doubles. -/
def dadd : DVal → DVal → DVal
  | some a, some b => some (a + b)
  | _, _ => none

/-- NaN-propagating multiplication on doubles. -/
def dmul : DVal → DVal → DVal
  | some a, some b => some (a * b)
  | _, _ => none

/-- Inner loop of the native kernel `compute_quality_scores`: starting from
`acc = 0.0`, for each feature `j` skip when `is_nan(row[j])`, otherwise
`acc += row[j] * weights[j]`. -/
def scoreRow (row weights : List DVal) : DVal :=
  (row.zip weights).foldl
    (fun acc p => if is_nan p.1 then acc else dadd acc (dmul p.1 p.2)) (some 0)

/-- The native kernel `compute_quality_scores`: one score per row of the
feature matrix, each row scored independently against the shared weights. -/
def compute_quality_scores (features : List (List DVal)) (weights : List DVal) :
    List DVal :=
  features.map (fun row => scoreRow row weights)

/-- Mathematical skip-on-NaN weighted sum: the sum of `v_j * w_j` over exactly
those positions `j` where the feature value is present (not NaN). -/
def skipNanSum (row : List DVal) (ws : List ℚ) : ℚ :=
  ((row.zip ws).filterMap (fun p => p.1.map (fun v => v * p.2))).sum

lemma is_nan_none : is_nan none = true := rfl

lemma is_nan_some (q : ℚ) : is_nan (some q) = false := rfl

lemma dadd_some (a b : ℚ) : dadd (some a) (some b) = some (a + b) := rfl

lemma dmul_some (a b : ℚ) : dmul (some a) (some b) = some (a * b) := rfl

lemma skipNanSum_nil (ws : List ℚ) : skipNanSum [] ws = 0 := by
  simp [skipNanSum]

lemma skipNanSum_nil_right (row : List DVal) : skipNanSum row [] = 0 := by
  simp [skipNanSum]

lemma skipNanSum_cons_none (r : List DVal) (w : ℚ) (ws : List ℚ) :
    skipNanSum (none :: r) (w :: ws) = skipNanSum r ws := by
  simp [skipNanSum]

lemma skipNanSum_cons_some (q : ℚ) (r : List DVal) (w : ℚ) (ws : List ℚ) :
    skipNanSum (some q :: r) (w :: ws) = q * w + skipNanSum r ws := by
  simp [skipNanSum]

lemma scoreRow_go (row : List DVal) : ∀ (ws : List ℚ) (a : ℚ),
    (row.zip (ws.map some)).foldl
      (fun acc p => if is_nan p.1 then acc else dadd acc (dmul p.1 p.2)) (some a)
    = some (a + skipNanSum row ws) := by
  induction row with
  | nil => intro ws a; simp [skipNanSum_nil]
  | cons v r ih =>
    intro ws a
    cases ws with
    | nil => simp [skipNanSum_nil_right]
    | cons w ws =>
      cases v with
      | none =>
        simp only [List.map_cons, List.zip_cons_cons, List.foldl_cons,
          is_nan_none, if_pos]
        rw [ih, skipNanSum_cons_none]
      | some q =>
        simp only [List.map_cons, List.zip_cons_cons, List.foldl_cons,
          is_nan_some, dmul_some, dadd_some]
        rw [if_neg (by simp), ih, skipNanSum_cons_some]
        congr 1
        ring

lemma scoreRow_eq_skipNanSum (row : List DVal) (ws : List ℚ) :
    scoreRow row (ws.map some) = some (skipNanSum row ws) := by
  unfold scoreRow
  rw [scoreRow_go row ws 0, zero_add]

/-- C1: for every feature matrix and (ordinary, non-NaN) weight vector, the
native kernel produces for each row the sum of `weight[j]*value[j]` over
exactly the non-NaN features `j`, so NaN features contribute nothing; in
particular a row `[5.0, NaN, 2.0]` with weights `[1.0, 1.0, 1.0]` scores
`7.0`, not NaN. -/
theorem compute_quality_scores_skips_nan :
    (∀ (features : List (List DVal)) (ws : List ℚ),
        compute_quality_scores features (ws.map some)
          = features.map (fun row => some (skipNanSum row ws))) ∧
    compute_quality_scores [[some 5, none, some 2]] [some 1, some 1, some 1]
      = [some 7] := by
  constructor
  · intro features ws
    unfold compute_quality_scores
    exact List.map_congr_left (fun row _ => scoreRow_eq_skipNanSum row ws)
  · simp [compute_quality_scores, scoreRow, is_nan, dadd, dmul]
    norm_num

lemma scoreRow_all_none (row : List DVal) (weights : List DVal)
    (h : ∀ v ∈ row, v = none) : scoreRow row weights = some 0 := by
  induction row generalizing weights with
  | nil => simp [scoreRow]
  | cons v r ih =>
    cases weights with
    | nil => simp [scoreRow]
    | cons w ws =>
      have hv : v = none := h v (by simp)
      subst hv
      have step : scoreRow (none :: r) (w :: ws) = scoreRow r ws := by
        simp [scoreRow, is_nan]
      rw [step]
      exact ih ws (fun v hv => h v (by simp [hv]))

/-- C4: in any feature matrix (also one mixing ordinary rows with all-NaN
rows), every row in which every feature value is NaN scores exactly 0 (never
NaN), since the accumulator starts at 0.0 and every feature is skipped. -/
theorem compute_quality_scores_all_nan_zero
    (features : List (List DVal)) (weights : List DVal) (i : ℕ)
    (row : List DVal) (hrow : features[i]? = some row)
    (hnan : ∀ v ∈ row, v = none) :
    (compute_quality_scores features weights)[i]? = some (some 0) := by
  unfold compute_quality_scores
  rw [List.getElem?_map, hrow]
  show some (scoreRow row weights) = some (some 0)
  rw [scoreRow_all_none row weights hnan]

theorem compute_quality_scores_all_nan_zero_witness :
    (compute_quality_scores [[some 1], [none, none]] [some 1, some 1])[1]?
      = some (some 0) :=
  compute_quality_scores_all_nan_zero [[some 1], [none, none]]
    [some 1, some 1] 1 [none, none] rfl (by decide)

/-- C5: scoring is row-independent: splitting the feature matrix at any row
index `k`, scoring the two halves separately and concatenating gives exactly
the sequential result, and scoring distributes over any concatenation of row
blocks. -/
theorem compute_quality_scores_row_split :
    ∀ (features : List (List DVal)) (weights : List DVal) (k : ℕ),
      (compute_quality_scores (features.take k) weights
          ++ compute_quality_scores (features.drop k) weights
        = compute_quality_scores features weights) ∧
      ∀ (rows1 rows2 : List (List DVal)),
        compute_quality_scores (rows1 ++ rows2) weights
          = compute_quality_scores rows1 weights
            ++ compute_quality_scores rows2 weights := by
  intro features weights k
  constructor
  · unfold compute_quality_scores
    rw [← List.map_append, List.take_append_drop]
  · intro rows1 rows2
    unfold compute_quality_scores
    exact List.map_append _ rows1 rows2

lemma skipNanSum_nonneg (row : List DVal) (ws : List ℚ)
    (hw : ∀ w ∈ ws, 0 ≤ w) (hv : ∀ q : ℚ, some q ∈ row → 0 ≤ q) :
    0 ≤ skipNanSum row ws := by
  induction row generalizing ws with
  | nil => rw [skipNanSum_nil]
  | cons v r ih =>
    cases ws with
    | nil => rw [skipNanSum_nil_right]
    | cons w ws =>
      cases v with
      | none =>
        rw [skipNanSum_cons_none]
        exact ih ws (fun x hx => hw x (by simp [hx]))
          (fun q hq => hv q (by simp [hq]))
      | some q =>
        rw [skipNanSum_cons_some]
        have h1 : 0 ≤ q := hv q (by simp)
        have h2 : 0 ≤ w := hw w (by simp)
        have h3 := ih ws (fun x hx => hw x (by simp [hx]))
          (fun x hx => hv x (by simp [hx]))
        have h4 : 0 ≤ q * w := mul_nonneg h1 h2
        linarith

lemma skipNanSum_le_sum (row : List DVal) (ws : List ℚ)
    (hw : ∀ w ∈ ws, 0 ≤ w) (hv : ∀ q : ℚ, some q ∈ row → q ≤ 1) :
    skipNanSum row ws ≤ ws.sum := by
  induction row generalizing ws with
  | nil =>
    rw [skipNanSum_nil]
    exact List.sum_nonneg hw
  | cons v r ih =>
    cases ws with
    | nil => rw [skipNanSum_nil_right]; simp
    | cons w ws =>
      rw [List.sum_cons]
      have h2 : 0 ≤ w := hw w (by simp)
      have h3 := ih ws (fun x hx => hw x (by simp [hx]))
        (fun x hx => hv x (by simp [hx]))
      cases v with
      | none =>
        rw [skipNanSum_cons_none]
        linarith
      | some q =>
        rw [skipNanSum_cons_some]
        have h1 : q ≤ 1 := hv q (by simp)
        nlinarith

/-- Default composite-score weights from the pipeline: walkability 0.35,
non-auto share 0.25, inverted pollution 0.20, inverted traffic 0.20. -/
def defaultWeightsQ : List ℚ := [35/100, 25/100, 20/100, 20/100]

/-- The default weights as they are handed to the native kernel. -/
def defaultWeights : List DVal := defaultWeightsQ.map some

lemma defaultWeightsQ_nonneg : ∀ w ∈ defaultWeightsQ, (0 : ℚ) ≤ w := by
  intro w hw
  simp only [defaultWeightsQ, List.mem_cons, List.not_mem_nil, or_false] at hw
  rcases hw with h | h | h | h <;> rw [h] <;> norm_num

lemma defaultWeightsQ_sum : defaultWeightsQ.sum = 1 := by
  norm_num [defaultWeightsQ]

/-- C3: for a tract row over the four normalized inputs where at least one
input is present and every present input lies in [0,1], the kernel's composite
score under the default weights (0.35, 0.25, 0.20, 0.20) lies in [0,1]. -/
theorem composite_score_in_unit_interval (row : List DVal)
    (hlen : row.length = 4)
    (hpresent : ∃ v ∈ row, v ≠ none)
    (hrange : ∀ q : ℚ, some q ∈ row → 0 ≤ q ∧ q ≤ 1) :
    ∃ r : ℚ, compute_quality_scores [row] defaultWeights = [some r]
      ∧ 0 ≤ r ∧ r ≤ 1 := by
  refine ⟨skipNanSum row defaultWeightsQ, ?_, ?_, ?_⟩
  · unfold compute_quality_scores defaultWeights
    simp only [List.map_cons, List.map_nil]
    rw [scoreRow_eq_skipNanSum]
  · exact skipNanSum_nonneg row defaultWeightsQ defaultWeightsQ_nonneg
      (fun q hq => (hrange q hq).1)
  · have h := skipNanSum_le_sum row defaultWeightsQ defaultWeightsQ_nonneg
      (fun q hq => (hrange q hq).2)
    rw [defaultWeightsQ_sum] at h
    exact h

theorem composite_score_in_unit_interval_witness :
    ∃ r : ℚ, compute_quality_scores [[some 1, none, some 0, some (1/2)]]
        defaultWeights = [some r] ∧ 0 ≤ r ∧ r ≤ 1 :=
  composite_score_in_unit_interval [some 1, none, some 0, some (1/2)]
    (by simp)
    ⟨some 1, by simp, by simp⟩
    (by
      intro q hq
      simp only [List.mem_cons, List.not_mem_nil, or_false,
        Option.some.injEq, reduceCtorEq, false_or] at hq
      rcases hq with h | h | h <;> rw [h] <;> norm_num)

/-- Modelled from the spec: the Composite Scorer's straightforward definition
(the Python pipeline around the native kernel is not included under src/) —
the weighted average over the present (non-NaN) features with the weights
renormalized over the present subset (divided by the sum of the present
weights); undefined (NaN) when no feature is present. -/
def spec_composite_score (row : List DVal) (ws : List ℚ) : DVal :=
  let present := (row.zip ws).filterMap (fun p => p.1.map (fun v => (v, p.2)))
  if present.isEmpty then none
  else some ((present.map (fun p => p.1 * p.2)).sum / (present.map Prod.snd).sum)

/-- C2 counterexample: the native kernel is not bit-identical to the
renormalized weighted-average definition. On a row where only the first of
the four features is present, the kernel returns the un-renormalized
0.35·1 = 0.35 while the renormalized average returns 1. -/
theorem kernel_ne_renormalized_average :
    compute_quality_scores [[some 1, none, none, none]] defaultWeights
      ≠ [spec_composite_score [some 1, none, none, none] defaultWeightsQ] := by
  simp only [compute_quality_scores, scoreRow, spec_composite_score,
    defaultWeights, defaultWeightsQ, List.map_cons, List.map_nil,
    List.zip_cons_cons, List.zip_nil_right, List.foldl_cons, List.foldl_nil,
    List.filterMap_cons, List.filterMap_nil, Option.map_some, Option.map_none,
    is_nan_none, is_nan_some, dadd_some, dmul_some, if_pos, List.sum_cons,
    List.sum_nil]
  norm_num

/-- C2 (amended): the kernel computes the plain skip-on-NaN accumulation
without renormalizing over the present subset, so it is not bit-identical to
the renormalized weighted-average definition on rows with missing features;
on every row where all four features are present, the two definitions
coincide under the default weights, whose sum is 1. -/
theorem kernel_eq_renormalized_average_of_all_present (a b c d : ℚ) :
    compute_quality_scores [[some a, some b, some c, some d]] defaultWeights
      = [spec_composite_score [some a, some b, some c, some d]
          defaultWeightsQ] := by
  simp [compute_quality_scores, scoreRow, spec_composite_score,
    defaultWeights, defaultWeightsQ, is_nan, dadd, dmul]
  ring_nf

/-- Modelled from the spec: the Normalizer (in the data pipeline, not
included under src/) — for one scoring input column, compute the statewide
min and max over all non-missing values, then rescale every present value
`v` to `(v - min) / (max - min)`, except that when `max = min` (degenerate
constant column) every normalized value is defined as 0.5; missing values
stay the NaN sentinel. -/
def normalize_column (col : List DVal) : List DVal :=
  match col.filterMap id with
  | [] => col.map (fun _ => none)
  | p :: ps =>
    let mn := ps.foldl min p
    let mx := ps.foldl max p
    col.map (Option.map (fun v => if mx = mn then 1/2 else (v - mn) / (mx - mn)))

lemma foldl_min_const (c : ℚ) : ∀ (l : List ℚ), (∀ x ∈ l, x = c) →
    l.foldl min c = c := by
  intro l
  induction l with
  | nil => intro _; rfl
  | cons x xs ih =>
    intro h
    have hx : x = c := h x (by simp)
    simp only [List.foldl_cons, hx, min_self]
    exact ih (fun y hy => h y (by simp [hy]))

lemma foldl_max_const (c : ℚ) : ∀ (l : List ℚ), (∀ x ∈ l, x = c) →
    l.foldl max c = c := by
  intro l
  induction l with
  | nil => intro _; rfl
  | cons x xs ih =>
    intro h
    have hx : x = c := h x (by simp)
    simp only [List.foldl_cons, hx, max_self]
    exact ih (fun y hy => h y (by simp [hy]))

/-- C6: a column whose non-missing values are all equal (statewide max = min)
normalizes every present entry to 0.5, with no division performed (the
degenerate branch is taken), and missing entries stay missing. -/
theorem normalize_column_constant (col : List DVal) (c : ℚ)
    (h : ∀ q : ℚ, some q ∈ col → q = c) :
    normalize_column col = col.map (Option.map (fun _ => 1/2)) := by
  unfold normalize_column
  have hmem : ∀ q ∈ col.filterMap id, q = c := by
    intro q hq
    rw [List.mem_filterMap] at hq
    obtain ⟨v, hv, hvq⟩ := hq
    simp only [id_eq] at hvq
    subst hvq
    exact h q hv
  cases hcase : col.filterMap id with
  | nil =>
    have hnone : ∀ v ∈ col, v = none := by
      intro v hv
      cases v with
      | none => rfl
      | some q =>
        exfalso
        have : (q : ℚ) ∈ col.filterMap id := by
          rw [List.mem_filterMap]
          exact ⟨some q, hv, rfl⟩
        rw [hcase] at this
        exact List.not_mem_nil q this
    apply List.map_congr_left
    intro v hv
    rw [hnone v hv]
    rfl
  | cons p ps =>
    have hp : p = c := by
      apply hmem
      rw [hcase]
      simp
    have hps : ∀ x ∈ ps, x = c := by
      intro x hx
      apply hmem
      rw [hcase]
      simp [hx]
    have hmn : ps.foldl min p = c := by rw [hp]; exact foldl_min_const c ps hps
    have hmx : ps.foldl max p = c := by rw [hp]; exact foldl_max_const c ps hps
    simp only [hmn, hmx, if_pos]

theorem normalize_column_constant_witness :
    normalize_column [some 3, none, some 3] = [some (1/2), none, some (1/2)] := by
  have h := normalize_column_constant [some 3, none, some 3] 3
    (by
      intro q hq
      simp only [List.mem_cons, List.not_mem_nil, or_false,
        Option.some.injEq, reduceCtorEq, false_or] at hq
      rcases hq with h | h <;> exact h)
  rw [h]
  rfl

/-- Modelled from the spec: a tract as the Recommender sees it (the Python
backend is not included under src/) — its GEOID and its normalized columns,
looked up by column name, `none` for NaN. -/
structure RecTract where
  geoid : String
  norm : String → DVal

/-- Modelled from the spec: the personalized score — `Σ weight[c]·norm_value[c]`
over the supplied weight mapping, skipping any column that is NaN for the
tract, so an all-NaN tract scores 0. -/
def personalized_score (w : List (String × ℚ)) (t : RecTract) : ℚ :=
  (w.filterMap (fun p => (t.norm p.1).map (fun v => p.2 * v))).sum

/-- Modelled from the spec: the Recommender's ranking order — descending
personalized score, ties broken by ascending GEOID. -/
def ranksBefore (w : List (String × ℚ)) (a b : RecTract) : Prop :=
  personalized_score w b < personalized_score w a ∨
    (personalized_score w a = personalized_score w b ∧ a.geoid ≤ b.geoid)

instance (w : List (String × ℚ)) (a b : RecTract) :
    Decidable (ranksBefore w a b) := by
  unfold ranksBefore
  infer_instance

/-- Modelled from the spec: insertion step of the ranking sort. -/
def insertRanked (w : List (String × ℚ)) (t : RecTract) :
    List RecTract → List RecTract
  | [] => [t]
  | x :: xs => if ranksBefore w t x then t :: x :: xs else x :: insertRanked w t xs

/-- Modelled from the spec: the Recommender's sort of the eligible tracts —
descending personalized score, ties broken by ascending GEOID. -/
def rankTracts (w : List (String × ℚ)) (ts : List RecTract) : List RecTract :=
  ts.foldr (insertRanked w) []

lemma ranksBefore_total (w : List (String × ℚ)) (a b : RecTract) :
    ranksBefore w a b ∨ ranksBefore w b a := by
  unfold ranksBefore
  rcases lt_trichotomy (personalized_score w a) (personalized_score w b)
    with h | h | h
  · right; left; exact h
  · rcases le_total a.geoid b.geoid with hg | hg
    · left; right; exact ⟨h, hg⟩
    · right; right; exact ⟨h.symm, hg⟩
  · left; left; exact h

lemma ranksBefore_of_not (w : List (String × ℚ)) (a b : RecTract)
    (h : ¬ ranksBefore w a b) : ranksBefore w b a :=
  (ranksBefore_total w a b).resolve_left h

lemma ranksBefore_trans (w : List (String × ℚ)) (a b c : RecTract)
    (h1 : ranksBefore w a b) (h2 : ranksBefore w b c) : ranksBefore w a c := by
  unfold ranksBefore at h1 h2 ⊢
  rcases h1 with h1 | ⟨h1e, h1g⟩ <;> rcases h2 with h2 | ⟨h2e, h2g⟩
  · left; exact lt_trans h2 h1
  · left; rw [← h2e]; exact h1
  · left; rw [h1e]; exact h2
  · right; exact ⟨h1e.trans h2e, le_trans h1g h2g⟩

lemma mem_insertRanked (w : List (String × ℚ)) (t : RecTract)
    (l : List RecTract) (x : RecTract) :
    x ∈ insertRanked w t l ↔ x = t ∨ x ∈ l := by
  induction l with
  | nil => simp [insertRanked]
  | cons y ys ih =>
    rw [insertRanked]
    by_cases hc : ranksBefore w t y
    · rw [if_pos hc]
      simp
    · rw [if_neg hc]
      simp only [List.mem_cons, ih]
      tauto

lemma pairwise_insertRanked (w : List (String × ℚ)) (t : RecTract) :
    ∀ (l : List RecTract), l.Pairwise (ranksBefore w) →
      (insertRanked w t l).Pairwise (ranksBefore w) := by
  intro l
  induction l with
  | nil =>
    intro _
    simp [insertRanked]
  | cons x xs ih =>
    intro h
    rw [List.pairwise_cons] at h
    obtain ⟨hx, hxs⟩ := h
    rw [insertRanked]
    by_cases hc : ranksBefore w t x
    · rw [if_pos hc]
      refine List.Pairwise.cons ?_ (List.Pairwise.cons hx hxs)
      intro y hy
      rcases List.mem_cons.mp hy with h1 | h1
      · rw [h1]; exact hc
      · exact ranksBefore_trans w t x y hc (hx y h1)
    · rw [if_neg hc]
      refine List.Pairwise.cons ?_ (ih hxs)
      intro y hy
      rcases (mem_insertRanked w t xs y).mp hy with h1 | h1
      · rw [h1]; exact ranksBefore_of_not w t x hc
      · exact hx y h1

lemma pairwise_rankTracts (w : List (String × ℚ)) (ts : List RecTract) :
    (rankTracts w ts).Pairwise (ranksBefore w) := by
  unfold rankTracts
  induction ts with
  | nil => simp
  | cons t ts ih => exact pairwise_insertRanked w t _ ih

/-- Tract A of the spec's ranking example: walkability_norm 0.9,
pollution_norm 0.2. -/
def tractA : RecTract :=
  ⟨"A", fun c =>
    if c = "walkability_norm" then some (9/10)
    else if c = "pollution_norm" then some (2/10)
    else none⟩

/-- Tract B of the spec's ranking example: walkability_norm 0.2,
pollution_norm 0.9. -/
def tractB : RecTract :=
  ⟨"B", fun c =>
    if c = "walkability_norm" then some (2/10)
    else if c = "pollution_norm" then some (9/10)
    else none⟩

/-- The weight mapping walkability_norm 1, pollution_norm 0. -/
def weightsWalk : List (String × ℚ) := [("walkability_norm", 1), ("pollution_norm", 0)]

/-- The swapped weight mapping walkability_norm 0, pollution_norm 1. -/
def weightsPoll : List (String × ℚ) := [("walkability_norm", 0), ("pollution_norm", 1)]

lemma score_walk_A : personalized_score weightsWalk tractA = 9/10 := by
  simp [personalized_score, weightsWalk, tractA]

lemma score_walk_B : personalized_score weightsWalk tractB = 2/10 := by
  simp [personalized_score, weightsWalk, tractB]

lemma score_poll_A : personalized_score weightsPoll tractA = 2/10 := by
  simp [personalized_score, weightsPoll, tractA]

lemma score_poll_B : personalized_score weightsPoll tractB = 9/10 := by
  simp [personalized_score, weightsPoll, tractB]

lemma ranksBefore_walk_AB : ranksBefore weightsWalk tractA tractB := by
  left
  rw [score_walk_A, score_walk_B]
  norm_num

lemma not_ranksBefore_walk_BA : ¬ ranksBefore weightsWalk tractB tractA := by
  rintro (h | ⟨h, _⟩) <;> rw [score_walk_A, score_walk_B] at h <;> norm_num at h

lemma ranksBefore_poll_BA : ranksBefore weightsPoll tractB tractA := by
  left
  rw [score_poll_A, score_poll_B]
  norm_num

lemma not_ranksBefore_poll_AB : ¬ ranksBefore weightsPoll tractA tractB := by
  rintro (h | ⟨h, _⟩) <;> rw [score_poll_A, score_poll_B] at h <;> norm_num at h

/-- C7: the Recommender orders eligible tracts by descending personalized
score with ties broken by ascending GEOID (the output is pairwise sorted in
that order for every weight mapping and input list); consequently, for
tract A (walkability_norm 0.9, pollution_norm 0.2) and tract B
(walkability_norm 0.2, pollution_norm 0.9) under weights
walkability_norm 1, pollution_norm 0, A ranks above B whatever the input
order, and swapping the two weights reverses the order. -/
theorem recommender_ranking :
    (∀ (w : List (String × ℚ)) (ts : List RecTract),
        (rankTracts w ts).Pairwise (ranksBefore w)) ∧
    rankTracts weightsWalk [tractA, tractB] = [tractA, tractB] ∧
    rankTracts weightsWalk [tractB, tractA] = [tractA, tractB] ∧
    rankTracts weightsPoll [tractA, tractB] = [tractB, tractA] ∧
    rankTracts weightsPoll [tractB, tractA] = [tractB, tractA] := by
  refine ⟨pairwise_rankTracts, ?_, ?_, ?_, ?_⟩
  · show insertRanked weightsWalk tractA (insertRanked weightsWalk tractB [])
      = [tractA, tractB]
    rw [insertRanked, insertRanked, if_pos ranksBefore_walk_AB]
  · show insertRanked weightsWalk tractB (insertRanked weightsWalk tractA [])
      = [tractA, tractB]
    rw [insertRanked, insertRanked, if_neg not_ranksBefore_walk_BA, insertRanked]
  · show insertRanked weightsPoll tractA (insertRanked weightsPoll tractB [])
      = [tractB, tractA]
    rw [insertRanked, insertRanked, if_neg not_ranksBefore_poll_AB, insertRanked]
  · show insertRanked weightsPoll tractB (insertRanked weightsPoll tractA [])
      = [tractB, tractA]
    rw [insertRanked, insertRanked, if_pos ranksBefore_poll_BA]

/-- A tract record as returned by the backend API (only the identity matters
for the client-side claims). -/
structure ApiTract where
  geoid : String
deriving DecidableEq

/-- An HTTP response as the axios client sees it: a status code and the
parsed body's results array. -/
structure HttpResponse where
  status : ℤ
  results : List ApiTract

/-- fetchTracts from src/frontend/src/api.ts: clamps the limit to
`Math.min(10000, limit)` and the offset to `Math.max(0, offset)`, sends those
as the request parameters, accepts exactly HTTP 200 (`validateStatus`), and
rethrows every other outcome as an error. The first component is the pair of
query parameters actually sent; the second is the returned value. -/
def fetchTracts (limit offset : ℤ) (resp : HttpResponse) :
    (ℤ × ℤ) × Except String (List ApiTract) :=
  let l := min 10000 limit
  let o := max 0 offset
  ((l, o),
    if resp.status = 200 then Except.ok resp.results
    else Except.error "fetchTract")

/-- C8: fetchTracts sends limit `min(10000, limit)` and offset
`max(0, offset)`; it returns the results array exactly on an HTTP 200
response and throws on any other status, never returning partial data. -/
theorem fetchTracts_spec (limit offset : ℤ) (resp : HttpResponse) :
    (fetchTracts limit offset resp).1 = (min 10000 limit, max 0 offset) ∧
    ((∃ rs, (fetchTracts limit offset resp).2 = Except.ok rs) ↔
      resp.status = 200) ∧
    (resp.status = 200 →
      (fetchTracts limit offset resp).2 = Except.ok resp.results) := by
  refine ⟨rfl, ?_, ?_⟩
  · by_cases h : resp.status = 200 <;> simp [fetchTracts, h]
  · intro h
    simp [fetchTracts, h]

theorem fetchTracts_spec_witness :
    (fetchTracts 20000 (-5) ⟨200, []⟩).1 = (10000, 0) ∧
    (fetchTracts 20000 (-5) ⟨200, []⟩).2 = Except.ok [] := by
  have h := fetchTracts_spec 20000 (-5) ⟨200, []⟩
  refine ⟨?_, h.2.2 rfl⟩
  rw [h.1]
  norm_num

/-- The next-statistic action of the StatisticsCarousel:
`setCurrentIndex((prev) => (prev + 1) % stats.length)`, with the JS `%`
(truncated remainder) modeled by `Int.tmod`. -/
def carouselNext (n i : ℤ) : ℤ := Int.tmod (i + 1) n

/-- The previous-statistic action of the StatisticsCarousel:
`setCurrentIndex((prev) => (prev - 1 + stats.length) % stats.length)`. -/
def carouselPrev (n i : ℤ) : ℤ := Int.tmod (i - 1 + n) n

/-- C9: for a non-empty stats list of length n and a current index i in
[0, n-1], the carousel's next action maps i to (i+1) mod n and the prev
action to (i-1+n) mod n, both staying in [0, n-1], with next wrapping the
last statistic to the first and prev wrapping the first to the last. -/
theorem carousel_navigation (n i : ℤ) (hn : 0 < n) (hi : 0 ≤ i) (hin : i < n) :
    carouselNext n i = (i + 1) % n ∧
    carouselPrev n i = (i - 1 + n) % n ∧
    0 ≤ carouselNext n i ∧ carouselNext n i < n ∧
    0 ≤ carouselPrev n i ∧ carouselPrev n i < n ∧
    carouselNext n (n - 1) = 0 ∧
    carouselPrev n 0 = n - 1 := by
  have hnz : n ≠ 0 := ne_of_gt hn
  have h1 : (0 : ℤ) ≤ i + 1 := by linarith
  have h2 : (0 : ℤ) ≤ i - 1 + n := by linarith
  have hnext : carouselNext n i = (i + 1) % n :=
    Int.tmod_eq_emod h1 (le_of_lt hn)
  have hprev : carouselPrev n i = (i - 1 + n) % n :=
    Int.tmod_eq_emod h2 (le_of_lt hn)
  refine ⟨hnext, hprev, ?_, ?_, ?_, ?_, ?_, ?_⟩
  · rw [hnext]; exact Int.emod_nonneg _ hnz
  · rw [hnext]; exact Int.emod_lt_of_pos _ hn
  · rw [hprev]; exact Int.emod_nonneg _ hnz
  · rw [hprev]; exact Int.emod_lt_of_pos _ hn
  · show Int.tmod (n - 1 + 1) n = 0
    rw [sub_add_cancel, Int.tmod_eq_emod (le_of_lt hn) (le_of_lt hn),
      Int.emod_self]
  · show Int.tmod (0 - 1 + n) n = n - 1
    have h3 : (0 : ℤ) - 1 + n = n - 1 := by ring
    rw [h3, Int.tmod_eq_emod (by linarith) (le_of_lt hn)]
    exact Int.emod_eq_of_lt (by linarith) (by linarith)

theorem carousel_navigation_witness :
    (0 : ℤ) < 3 ∧ (0 : ℤ) ≤ 2 ∧ (2 : ℤ) < 3 ∧
    (carouselNext 3 2 = (2 + 1) % 3 ∧
      carouselPrev 3 2 = (2 - 1 + 3) % 3 ∧
      0 ≤ carouselNext 3 2 ∧ carouselNext 3 2 < 3 ∧
      0 ≤ carouselPrev 3 2 ∧ carouselPrev 3 2 < 3 ∧
      carouselNext 3 (3 - 1) = 0 ∧
      carouselPrev 3 0 = 3 - 1) :=
  ⟨by norm_num, by norm_num, by norm_num,
    carousel_navigation 3 2 (by norm_num) (by norm_num) (by norm_num)⟩

/-- A tract as the NavigationBar search sees it: its GEOID and its already
normalized search field for the active mode (fieldsForMode after normalize),
as a character list. -/
structure SearchTract where
  geoid : String
  field : List Char

/-- The prefix pass of searchResults: tracts whose normalized field starts
with the normalized query. -/
def prefixMatches (query : List Char) (tracts : List SearchTract) :
    List SearchTract :=
  tracts.filter (fun t => query.isPrefixOf t.field)

/-- Substring containment as in JS String.includes, on character lists. -/
def containsSeq (q : List Char) : List Char → Bool
  | [] => q.isEmpty
  | c :: cs => q.isPrefixOf (c :: cs) || containsSeq q cs

/-- The substring pass of searchResults: tracts whose normalized field does
not start with the query but does contain it. -/
def substringOnlyMatches (query : List Char) (tracts : List SearchTract) :
    List SearchTract :=
  tracts.filter (fun t => !query.isPrefixOf t.field && containsSeq query t.field)

/-- The dedup-and-cap loop of searchResults: keep the first occurrence per
GEOID, stopping as soon as the cap is reached (the Map insertion plus the
size-based break). -/
def collectUnique (cap : ℕ) (seen : List String) :
    List SearchTract → List SearchTract
  | [] => []
  | t :: ts =>
    if t.geoid ∈ seen then collectUnique cap seen ts
    else t :: (if cap ≤ seen.length + 1 then []
               else collectUnique cap (t.geoid :: seen) ts)

/-- searchResults from src/frontend/src/components/NavigationBar.tsx: empty
for an empty query or tract list; otherwise the prefix matches, extended by
the substring-only matches when there are fewer than 10 prefix matches and
the query has at least 3 characters, deduplicated by GEOID and capped at 10. -/
def searchResults (query : List Char) (tracts : List SearchTract) :
    List SearchTract :=
  if query.isEmpty || tracts.isEmpty then []
  else
    collectUnique 10 []
      (if (prefixMatches query tracts).length < 10 ∧ 3 ≤ query.length then
        prefixMatches query tracts ++ substringOnlyMatches query tracts
      else prefixMatches query tracts)

lemma mem_prefixMatches {q : List Char} {ts : List SearchTract} {t : SearchTract}
    (h : t ∈ prefixMatches q ts) : q.isPrefixOf t.field = true :=
  (List.mem_filter.mp h).2

lemma mem_substringOnlyMatches {q : List Char} {ts : List SearchTract}
    {t : SearchTract} (h : t ∈ substringOnlyMatches q ts) :
    q.isPrefixOf t.field = false ∧ containsSeq q t.field = true := by
  have h2 := (List.mem_filter.mp h).2
  simp only [Bool.and_eq_true, Bool.not_eq_true'] at h2
  exact h2

lemma collectUnique_sublist (cap : ℕ) :
    ∀ (l : List SearchTract) (seen : List String),
      List.Sublist (collectUnique cap seen l) l := by
  intro l
  induction l with
  | nil => intro seen; exact List.Sublist.refl []
  | cons t ts ih =>
    intro seen
    rw [collectUnique]
    by_cases h : t.geoid ∈ seen
    · rw [if_pos h]
      exact (ih seen).cons t
    · rw [if_neg h]
      by_cases h2 : cap ≤ seen.length + 1
      · rw [if_pos h2]
        exact (List.nil_sublist ts).cons₂ t
      · rw [if_neg h2]
        exact (ih (t.geoid :: seen)).cons₂ t

lemma collectUnique_length_le (cap : ℕ) :
    ∀ (l : List SearchTract) (seen : List String),
      seen.length < cap →
      (collectUnique cap seen l).length ≤ cap - seen.length := by
  intro l
  induction l with
  | nil => intro seen h; simp [collectUnique]
  | cons t ts ih =>
    intro seen h
    rw [collectUnique]
    by_cases h1 : t.geoid ∈ seen
    · rw [if_pos h1]; exact ih seen h
    · rw [if_neg h1]
      by_cases h2 : cap ≤ seen.length + 1
      · rw [if_pos h2]
        simp only [List.length_cons, List.length_nil]
        omega
      · rw [if_neg h2]
        have h3 := ih (t.geoid :: seen) (by simp only [List.length_cons]; omega)
        simp only [List.length_cons] at h3 ⊢
        omega

lemma collectUnique_nodup (cap : ℕ) :
    ∀ (l : List SearchTract) (seen : List String),
      ((collectUnique cap seen l).map SearchTract.geoid).Nodup ∧
      ∀ g ∈ (collectUnique cap seen l).map SearchTract.geoid, g ∉ seen := by
  intro l
  induction l with
  | nil => intro seen; simp [collectUnique]
  | cons t ts ih =>
    intro seen
    rw [collectUnique]
    by_cases h1 : t.geoid ∈ seen
    · rw [if_pos h1]; exact ih seen
    · rw [if_neg h1]
      by_cases h2 : cap ≤ seen.length + 1
      · rw [if_pos h2]
        refine ⟨by simp, ?_⟩
        intro g hg
        simp only [List.map_cons, List.map_nil, List.mem_cons,
          List.not_mem_nil, or_false] at hg
        rw [hg]
        exact h1
      · rw [if_neg h2]
        obtain ⟨ihn, ihd⟩ := ih (t.geoid :: seen)
        constructor
        · rw [List.map_cons, List.nodup_cons]
          refine ⟨?_, ihn⟩
          intro hmem
          exact (ihd t.geoid hmem) (by simp)
        · intro g hg
          rw [List.map_cons, List.mem_cons] at hg
          rcases hg with hg | hg
          · rw [hg]; exact h1
          · intro hseen
            exact (ihd g hg) (by simp [hseen])

/-- C10: for every (normalized) query and tract list, the NavigationBar
search results contain at most 10 tracts with pairwise-distinct GEOIDs; the
result splits into a block of prefix matches followed by a block of
substring-only matches, so every prefix match precedes every
substring-only match; and a substring-only match appears only when there are
fewer than 10 prefix matches and the query is at least 3 characters long. -/
theorem searchResults_spec (query : List Char) (tracts : List SearchTract) :
    (searchResults query tracts).length ≤ 10 ∧
    ((searchResults query tracts).map SearchTract.geoid).Nodup ∧
    (∃ xs ys, searchResults query tracts = xs ++ ys ∧
        (∀ t ∈ xs, query.isPrefixOf t.field = true) ∧
        (∀ t ∈ ys, query.isPrefixOf t.field = false ∧
          containsSeq query t.field = true)) ∧
    (∀ t ∈ searchResults query tracts, query.isPrefixOf t.field = false →
      (prefixMatches query tracts).length < 10 ∧ 3 ≤ query.length) := by
  unfold searchResults
  by_cases h0 : query.isEmpty || tracts.isEmpty
  · rw [if_pos h0]
    exact ⟨by simp, by simp, ⟨[], [], by simp, by simp, by simp⟩, by simp⟩
  · rw [if_neg h0]
    by_cases hc : (prefixMatches query tracts).length < 10 ∧ 3 ≤ query.length
    · rw [if_pos hc]
      have hsub := collectUnique_sublist 10
        (prefixMatches query tracts ++ substringOnlyMatches query tracts) []
      obtain ⟨xs, ys, hxy, hxs, hys⟩ := List.sublist_append_iff.mp hsub
      refine ⟨?_, (collectUnique_nodup 10 _ []).1, ⟨xs, ys, hxy, ?_, ?_⟩, ?_⟩
      · have := collectUnique_length_le 10
          (prefixMatches query tracts ++ substringOnlyMatches query tracts) []
          (by norm_num)
        simpa using this
      · intro t ht
        exact mem_prefixMatches (hxs.subset ht)
      · intro t ht
        exact mem_substringOnlyMatches (hys.subset ht)
      · intro t _ _
        exact hc
    · rw [if_neg hc]
      have hsub := collectUnique_sublist 10 (prefixMatches query tracts) []
      refine ⟨?_, (collectUnique_nodup 10 _ []).1,
        ⟨collectUnique 10 [] (prefixMatches query tracts), [], by simp, ?_, ?_⟩,
        ?_⟩
      · have := collectUnique_length_le 10 (prefixMatches query tracts) []
          (by norm_num)
        simpa using this
      · intro t ht
        exact mem_prefixMatches (hsub.subset ht)
      · intro t ht
        exact absurd ht (List.not_mem_nil t)
      · intro t ht hfalse
        have := mem_prefixMatches (hsub.subset ht)
        rw [hfalse] at this
        exact absurd this (by simp)

theorem searchResults_spec_witness :
    (searchResults [Char.ofNat 97]
        [⟨"06001", [Char.ofNat 97, Char.ofNat 98]⟩]).length ≤ 10 :=
  (searchResults_spec [Char.ofNat 97]
    [⟨"06001", [Char.ofNat 97, Char.ofNat 98]⟩]).1

end StatAtlas
